import Mathlib

/-!
Verification of the finite-automata repository (`src/automata.py`).

Shallow embedding notes.
* State identifiers and input symbols are Python strings; we use `String`.
* A transition line parses to a tuple with (at least) three entries;
  we model a transition as the triple `Edge` of source, label, destination.
* Python `set` objects are modelled as insertion-ordered duplicate-free
  lists (`StSet`): membership, equality and union are content based, and
  iteration (in particular `''.join(s)`) follows the list order.  CPython
  iterates a set in an unspecified hash-dependent order; the insertion
  order is one concrete determinization of that behaviour, and every
  concrete evaluation below is understood relative to this choice.
* Python `while` loops become fuelled structural recursion; the fuel
  bounds are generous and, for `handle_closure`, proved sufficient.
* A word is a Python string iterated character by character; the declared
  alphabet consists of single-character symbols (spec §1), so we model a
  word as the list of its one-character symbols (`List String`).
-/

/-- A parsed transition rule `origem símbolo destino`. -/
abbrev Edge := String × String × String

/-- A Python `set` of state names, modelled as an insertion-ordered list. -/
abbrev StSet := List String

/-- The five-tuple returned by `load_automata`:
`(states, alphabet, delta, initial_state, final_states)`. -/
abbrev Nfa := List String × List String × List Edge × String × List String

/-- Validation part of `load_automata` (src/automata.py lines 48-63), taken
over the already-parsed five components; reading and splitting the file is
out of scope (spec §1) and each transition line is assumed to carry at
least three tokens, hence the `Edge` triples. -/
def load_automata (states alphabet : List String) (delta : List Edge)
    (initial_state : String) (final_states : List String) :
    Except String Nfa :=
  if initial_state ∉ states then .error "invalid initial state"
  else if ¬ final_states.all (fun s => states.contains s) then
    .error "invalid final state"
  else if ¬ delta.all (fun e =>
      states.contains e.1 &&
      (alphabet.contains e.2.1 || e.2.1 == "&") &&
      states.contains e.2.2) then
    .error "invalid edge"
  else .ok (states, alphabet, delta, initial_state, final_states)

/-- The first transition of `delta` matching `(current_state, symbol)`
moves the state; with no match the inner `for` loop of `process` falls
through and the current state is kept (src/automata.py lines 87-90). -/
def stepState (delta : List Edge) (q s : String) : String :=
  match delta.find? (fun e => e.1 == q && e.2.1 == s) with
  | some e => e.2.2
  | none => q

/-- The per-word loop of `process` (src/automata.py lines 82-90): scan the
symbols; an out-of-alphabet symbol aborts with `none` (INVALIDA), otherwise
the state is advanced by `stepState`. -/
def runWord (alphabet : List String) (delta : List Edge) :
    String → List String → Option String
  | q, [] => some q
  | q, s :: rest =>
    if s ∈ alphabet then runWord alphabet delta (stepState delta q s) rest
    else none

/-- Verdict of `process` for one word (src/automata.py lines 82-95). -/
def classify (alphabet : List String) (delta : List Edge)
    (initial_state : String) (final_states : List String)
    (w : List String) : String :=
  match runWord alphabet delta initial_state w with
  | some q => if q ∈ final_states then "ACEITA" else "REJEITA"
  | none => "INVALIDA"

/-- Python `dict` assignment `result[word] = v`: overwrite an existing key
in place, otherwise append at the end. -/
def dictInsert (m : List (List String × String)) (k : List String)
    (v : String) : List (List String × String) :=
  if m.any (fun p => p.1 == k) then
    m.map (fun p => if p.1 == k then (k, v) else p)
  else m ++ [(k, v)]

/-- `process(automata, words)` (src/automata.py lines 66-97).  The first
tuple component (`automata[0]`) is read into `delta` and immediately
overwritten by `automata[2]`, so evaluation never depends on it; the model
keeps it as a parameter of arbitrary type `σ`, exactly as Python never
inspects it.  This also lets `process` consume both the loaded five-tuple
(first component a list of states) and the value returned by
`convert_to_dfa` (first component a string, see below). -/
def process {σ : Type} (automata : σ × List String × List Edge × String × List String)
    (words : List (List String)) : List (List String × String) :=
  words.foldl
    (fun res w =>
      dictInsert res w
        (classify automata.2.1 automata.2.2.1 automata.2.2.2.1 automata.2.2.2.2 w))
    []

/-- Body of the `for edge in delta` loop of `handle_closure`
(src/automata.py lines 106-109) on the pair (closure, stack): an epsilon
edge out of `current` whose destination is new is added to the closure and
pushed on the stack. -/
def closF (current : String) (cs : List String × List String) (e : Edge) :
    List String × List String :=
  if e.1 = current ∧ e.2.1 = "&" ∧ e.2.2 ∉ cs.1 then
    (cs.1 ++ [e.2.2], e.2.2 :: cs.2)
  else cs

/-- One full pass of the `for edge in delta` loop of `handle_closure`. -/
def expandStep (delta : List Edge) (current : String)
    (cs : List String × List String) : List String × List String :=
  delta.foldl (closF current) cs

/-- The `while stack` loop of `handle_closure` (src/automata.py lines
104-109), with explicit fuel; Python's `stack.append`/`stack.pop()` pair
works on the same end of the list, modelled here by pushing and popping at
the head. -/
def closureLoopF (delta : List Edge) :
    Nat → List String → List String → Option (List String)
  | 0, _, _ => none
  | _ + 1, closure, [] => some closure
  | fuel + 1, closure, current :: stk =>
    let p := expandStep delta current (closure, stk)
    closureLoopF delta fuel p.1 p.2

/-- `handle_closure(state, delta)` (src/automata.py lines 99-111).  The
fuel `delta.length + 2` is proved sufficient below
(`closureLoopF_isSome`), so the default branch is never taken. -/
def handle_closure (state : String) (delta : List Edge) : List String :=
  (closureLoopF delta (delta.length + 2) [state] [state]).getD [state]

/-- Content-based union, the model of Python `new_state.union(closure)`:
the elements of `b` missing from `a` are appended in order. -/
def unionS (a b : List String) : List String :=
  b.foldl (fun acc x => if x ∈ acc then acc else acc ++ [x]) a

/-- Python `set` equality: same members. -/
def seteq (a b : List String) : Bool :=
  a.all (fun x => b.contains x) && b.all (fun x => a.contains x)

/-- The `new_state` computed for one `(current, symbol)` pair in
`convert_to_dfa` (src/automata.py lines 133-139): the union of the epsilon
closures of all destinations reachable from a member of `current` by
`symbol`. -/
def succState (delta : List Edge) (current : StSet) (symbol : String) : StSet :=
  current.foldl
    (fun acc st =>
      delta.foldl
        (fun acc2 e =>
          if e.1 = st ∧ e.2.1 = symbol then
            unionS acc2 (handle_closure e.2.2 delta)
          else acc2)
        acc)
    []

/-- Body of the `for symbol in alphabet` loop of `convert_to_dfa`
(src/automata.py lines 132-144), acting on `(new_delta, queue, watched)`:
a non-empty successor set is recorded as a transition, and enqueued plus
watched when no watched set has the same content. -/
def dfaStep (delta : List Edge) (current : StSet)
    (acc : List (StSet × String × StSet) × List StSet × List StSet)
    (symbol : String) : List (StSet × String × StSet) × List StSet × List StSet :=
  let t := succState delta current symbol
  if t = [] then acc
  else
    let nd := acc.1 ++ [(current, symbol, t)]
    if acc.2.2.any (fun w => seteq w t) then (nd, acc.2.1, acc.2.2)
    else (nd, t :: acc.2.1, acc.2.2 ++ [t])

/-- The `while queue` loop of `convert_to_dfa` (src/automata.py lines
128-144), with fuel; Python's `queue.append`/`queue.pop()` again work on
one end, modelled at the head.  Returns the accumulated `new_states` and
`new_delta`. -/
def dfaLoop (alphabet : List String) (delta : List Edge) :
    Nat → List StSet → List (StSet × String × StSet) → List StSet → List StSet →
    List StSet × List (StSet × String × StSet)
  | 0, ns, nd, _, _ => (ns, nd)
  | _ + 1, ns, nd, [], _ => (ns, nd)
  | fuel + 1, ns, nd, current :: queue, watched =>
    let acc := alphabet.foldl (dfaStep delta current) (nd, queue, watched)
    dfaLoop alphabet delta fuel (ns ++ [current]) acc.1 acc.2.1 acc.2.2

/-- All states mentioned by the transition list plus the initial state;
the composite sets built by the subset construction only ever contain
these, which makes `2 ^ length + 2` a sufficient fuel for `dfaLoop`. -/
def stateUniverse (delta : List Edge) (initial_state : String) : List String :=
  delta.foldr (fun e acc => e.1 :: e.2.2 :: acc) [initial_state]

/-- `''.join(s)` on the modelled set: concatenation in iteration order,
with no sorting and no delimiter (src/automata.py lines 162, 167-168, 174,
177). -/
def joinS (l : List String) : String := String.join l

/-- `convert_to_dfa(automata)` (src/automata.py lines 113-182).  Faithful
to the source, including its final formatting step: the returned first
component is `''.join` of the *last* element of `new_states` only, because
line 162 assigns `temp_new_state` instead of appending to it. -/
def convert_to_dfa (automata : Nfa) :
    String × List String × List Edge × String × List String :=
  let alphabet := automata.2.1
  let delta := automata.2.2.1
  let initial_state := automata.2.2.2.1
  let final_states := automata.2.2.2.2
  let ic := handle_closure initial_state delta
  let r := dfaLoop alphabet delta
    (2 ^ (stateUniverse delta initial_state).length + 2) [] [] [ic] []
  let ns := r.1
  let nd := r.2
  let new_final_states := ns.filter (fun s => s.any (fun st => final_states.contains st))
  let new_initial_state :=
    match ns.find? (fun s => s.contains initial_state) with
    | some s => joinS s
    | none => initial_state
  let new_states := (ns.map joinS).getLastD ""
  let new_delta := nd.map (fun e => (joinS e.1, e.2.1, joinS e.2.2))
  (new_states, alphabet, new_delta, new_initial_state,
    new_final_states.map joinS)

/-- Modelled from the spec (§1, §8, glossary): NFA-with-epsilon subset
semantics of the original automaton, the reference side of the
refinement claim C1.  Start from the epsilon closure of the initial
state; each symbol maps the current state set to the union of the epsilon
closures of all destinations under that symbol; accept when a final state
is reached. -/
def nfaStep (delta : List Edge) (S : List String) (symbol : String) :
    List String :=
  S.flatMap (fun s =>
    delta.flatMap (fun e =>
      if e.1 = s ∧ e.2.1 = symbol then handle_closure e.2.2 delta else []))

/-- Modelled from the spec (§8): acceptance of a word under the
NFA-with-epsilon semantics of the automaton. -/
def nfaAccepts (automata : Nfa) (w : List String) : Bool :=
  (w.foldl (nfaStep automata.2.2.1)
      (handle_closure automata.2.2.2.1 automata.2.2.1)).any
    (fun s => automata.2.2.2.2.contains s)

/-- One epsilon transition step of the original automaton. -/
def epsStepRel (delta : List Edge) (a b : String) : Prop :=
  ∃ e ∈ delta, e.1 = a ∧ e.2.1 = "&" ∧ e.2.2 = b

/-- Reachability by zero or more epsilon transitions. -/
def epsReach (delta : List Edge) (a b : String) : Prop :=
  Relation.ReflTransGen (epsStepRel delta) a b

/-- Measure for the `handle_closure` loop: the destinations of `delta` not
yet in the closure, plus the pending stack length. -/
def closMeasure (delta : List Edge) (closure stack : List String) : Nat :=
  ((delta.map (fun e => e.2.2)).toFinset \ closure.toFinset).card + stack.length

/-- The predicate every transition recorded by `dfaLoop` satisfies: its
destination is exactly the successor set computed from its source and
symbol. -/
def recordedOk (delta : List Edge) (t : StSet × String × StSet) : Prop :=
  t.2.2 = succState delta t.1 t.2.1

/-- Failing input for C1: one state, no transitions, the initial state is
final.  The empty-language automaton over alphabet `a` extended with a
final initial state: it accepts the empty word only. -/
def exC1 : Nfa := (["q0"], ["a"], [], "q0", ["q0"])

/-- Failing input for C3: two composite states arise, so the broken
formatting loop (assignment instead of append on line 162) keeps only the
last label. -/
def exC3 : Nfa := (["q0", "q1"], ["a"], [("q0", "a", "q1")], "q0", [])

/-- Counterexample input for C2: the composite sets `{a, aa}` and `{aaa}`
are distinct but both join to the label `aaa` in every member order, and
they carry different `z`-transitions. -/
def exC2 : Nfa :=
  (["s", "a", "aa", "aaa", "t1", "t2"], ["x", "y", "z"],
   [("s", "x", "a"), ("s", "x", "aa"), ("s", "y", "aaa"),
    ("a", "z", "t1"), ("aaa", "z", "t2")], "s", [])

/-- Failing input for C4: the distinct composite sets `{a, aa}` and
`{aaa}` receive the same label `aaa`. -/
def exC4 : Nfa :=
  (["s", "a", "aa", "aaa"], ["x", "y"],
   [("s", "x", "a"), ("s", "x", "aa"), ("s", "y", "aaa")], "s", [])

/-- Witness input for the amended C2: a single self loop. -/
def exSelf : Nfa := (["q0"], ["a"], [("q0", "a", "q0")], "q0", [])

/-- The §3 well-formedness condition `load_automata` checks after parsing:
initial state declared, final states declared, and every transition built
from declared states with a declared or epsilon label. -/
def validNfa (states alphabet : List String) (delta : List Edge)
    (initial_state : String) (final_states : List String) : Prop :=
  initial_state ∈ states ∧ (∀ f ∈ final_states, f ∈ states) ∧
    ∀ e ∈ delta, e.1 ∈ states ∧ (e.2.1 ∈ alphabet ∨ e.2.1 = "&") ∧ e.2.2 ∈ states

/-! ## Theorems -/

/-- C10: `process` never consults the declared state set.  The first tuple
component is read into a variable that is immediately overwritten, so two
automata differing only in that component (even in its type) classify every
word list identically. -/
theorem process_ignores_states {α β : Type} (s1 : α) (s2 : β)
    (rest : List String × List Edge × String × List String)
    (words : List (List String)) :
    process (s1, rest) words = process (s2, rest) words := rfl

/-- C9 counterexample: an input whose declared alphabet is exactly `["&"]`
is accepted by `load_automata` with no error, and the epsilon marker is
stored in the constructed automaton's alphabet. -/
theorem load_automata_accepts_epsilon_alphabet :
    load_automata ["q0"] ["&"] [] "q0" [] =
      .ok (["q0"], ["&"], [], "q0", []) := by rfl

/-- C1 (code bug): on the automaton `exC1`, which under NFA-with-epsilon
semantics accepts only the empty word, `process` applied to
`convert_to_dfa exC1` classifies the word `a` as ACEITA: the determinized
automaton has no transition on `a`, and `process` silently keeps the
current (final) state when no transition matches. -/
theorem convert_to_dfa_not_language_preserving :
    process (convert_to_dfa exC1) [["a"]] = [(["a"], "ACEITA")] ∧
    nfaAccepts exC1 ["a"] = false := ⟨rfl, rfl⟩

/-- C3 (code bug): on `exC3` the subset construction discovers the two
composite sets `{q0}` and `{q1}`, but the returned states component is the
single label `q1`: line 162 of src/automata.py assigns
`temp_new_state = ''.join(new_state)` instead of appending, so only the
last label survives.  The transition source `q0` and the initial label
`q0` are therefore not part of the states component. -/
theorem convert_to_dfa_drops_states :
    convert_to_dfa exC3 = ("q1", ["a"], [("q0", "a", "q1")], "q0", []) := by rfl

/-- C4 (code bug): on `exC4` the construction records the two distinct
composite sets `{a, aa}` and `{aaa}`, yet both are labelled `aaa`:
`''.join` concatenates the member names with no delimiter (and no
sorting), so different State Sets can collide on the same label. -/
theorem convert_to_dfa_label_collision :
    (dfaLoop ["x", "y"] exC4.2.2.1
        (2 ^ (stateUniverse exC4.2.2.1 "s").length + 2) [] []
        [handle_closure "s" exC4.2.2.1] []).2 =
      [(["s"], "x", ["a", "aa"]), (["s"], "y", ["aaa"])] ∧
    (["a", "aa"] : StSet) ≠ ["aaa"] ∧
    joinS ["a", "aa"] = joinS ["aaa"] ∧
    convert_to_dfa exC4 =
      ("aaa", ["x", "y"], [("s", "x", "aaa"), ("s", "y", "aaa")], "s", []) := by
  refine ⟨rfl, by decide, rfl, rfl⟩

/-- C2 counterexample: the automaton returned by `convert_to_dfa exC2`
contains the transitions `(aaa, z, t1)` and `(aaa, z, t2)`: two transitions
with the same source label and the same symbol but different destinations,
because the distinct composite sets `{a, aa}` and `{aaa}` both received
the label `aaa`. -/
theorem convert_to_dfa_not_deterministic :
    ("aaa", "z", "t1") ∈ (convert_to_dfa exC2).2.2.1 ∧
    ("aaa", "z", "t2") ∈ (convert_to_dfa exC2).2.2.1 ∧
    ("t1" : String) ≠ "t2" := by
  refine ⟨by decide, by decide, by decide⟩

/-- C5: inside `process`, an in-alphabet symbol with no matching
transition leaves the current state unchanged and processing continues
with the rest of the word; the eventual verdict is determined by the
final resting state (ACEITA or REJEITA), not by the missing transition. -/
theorem process_missing_transition (alphabet : List String)
    (delta : List Edge) (final_states : List String) (q s : String)
    (rest : List String) (hs : s ∈ alphabet)
    (hnone : delta.find? (fun e => e.1 == q && e.2.1 == s) = none) :
    runWord alphabet delta q (s :: rest) = runWord alphabet delta q rest ∧
    classify alphabet delta q final_states (s :: rest) =
      classify alphabet delta q final_states rest := by
  have hstep : stepState delta q s = q := by simp [stepState, hnone]
  refine ⟨?_, ?_⟩
  · simp [runWord, hs, hstep]
  · simp [classify, runWord, hs, hstep]

/-- Witness for C5 at a concrete input: alphabet `[a]`, no transitions,
state `q0`. -/
theorem process_missing_transition_witness :
    runWord ["a"] [] "q0" ["a"] = runWord ["a"] [] "q0" [] ∧
    classify ["a"] [] "q0" ["q0"] ["a"] = classify ["a"] [] "q0" ["q0"] [] :=
  process_missing_transition ["a"] [] ["q0"] "q0" "a" [] (by decide) rfl

/-- C8: over parsed components, `load_automata` fails with a descriptive
error exactly when the §3 invariants are violated (`validNfa` fails), and
on valid components it returns the five-tuple unchanged. -/
theorem load_automata_validates (states alphabet : List String)
    (delta : List Edge) (initial_state : String)
    (final_states : List String) :
    (load_automata states alphabet delta initial_state final_states =
        .ok (states, alphabet, delta, initial_state, final_states) ↔
      validNfa states alphabet delta initial_state final_states) ∧
    ((∃ msg, load_automata states alphabet delta initial_state final_states
        = .error msg) ↔
      ¬ validNfa states alphabet delta initial_state final_states) := by
  have hfin : (final_states.all (fun s => states.contains s) = true) ↔
      ∀ f ∈ final_states, f ∈ states := by
    simp [List.all_eq_true]
  have hedge : (delta.all (fun e =>
      states.contains e.1 &&
      (alphabet.contains e.2.1 || e.2.1 == "&") &&
      states.contains e.2.2) = true) ↔
      ∀ e ∈ delta,
        e.1 ∈ states ∧ (e.2.1 ∈ alphabet ∨ e.2.1 = "&") ∧ e.2.2 ∈ states := by
    simp [List.all_eq_true, and_assoc]
  unfold load_automata validNfa
  by_cases h1 : initial_state ∈ states
  · rw [if_neg (not_not_intro h1)]
    by_cases h2 : ∀ f ∈ final_states, f ∈ states
    · rw [if_neg (not_not_intro (hfin.mpr h2))]
      by_cases h3 : ∀ e ∈ delta,
          e.1 ∈ states ∧ (e.2.1 ∈ alphabet ∨ e.2.1 = "&") ∧ e.2.2 ∈ states
      · rw [if_neg (not_not_intro (hedge.mpr h3))]
        exact ⟨⟨fun _ => ⟨h1, h2, h3⟩, fun _ => rfl⟩,
          ⟨fun ⟨m, hm⟩ => by simp at hm, fun hn => absurd ⟨h1, h2, h3⟩ hn⟩⟩
      · rw [if_pos (fun hc => h3 (hedge.mp hc))]
        exact ⟨⟨fun h => by simp at h, fun hv => absurd hv.2.2 h3⟩,
          ⟨fun _ hv => absurd hv.2.2 h3, fun _ => ⟨"invalid edge", rfl⟩⟩⟩
    · rw [if_pos (fun hc => h2 (hfin.mp hc))]
      exact ⟨⟨fun h => by simp at h, fun hv => absurd hv.2.1 h2⟩,
        ⟨fun _ hv => absurd hv.2.1 h2, fun _ => ⟨"invalid final state", rfl⟩⟩⟩
  · rw [if_pos h1]
    exact ⟨⟨fun h => by simp at h, fun hv => absurd hv.1 h1⟩,
      ⟨fun _ hv => absurd hv.1 h1, fun _ => ⟨"invalid initial state", rfl⟩⟩⟩

/-- C9 amended: `load_automata` never checks the declared alphabet against
the epsilon marker.  Adding `&` to the alphabet leaves the validation
outcome untouched (same errors), and on success the five-tuple is returned
with `&` stored in its alphabet. -/
theorem load_automata_epsilon_indifferent (states alphabet : List String)
    (delta : List Edge) (initial_state : String)
    (final_states : List String) :
    load_automata states ("&" :: alphabet) delta initial_state final_states
      = (load_automata states alphabet delta initial_state final_states).map
          (fun t => (t.1, "&" :: t.2.1, t.2.2)) := by
  have hfun : (fun e : Edge =>
      states.contains e.1 &&
      (("&" :: alphabet).contains e.2.1 || e.2.1 == "&") &&
      states.contains e.2.2) = (fun e : Edge =>
      states.contains e.1 &&
      (alphabet.contains e.2.1 || e.2.1 == "&") &&
      states.contains e.2.2) := by
    funext e
    by_cases h : e.2.1 = "&" <;> simp [h, List.contains]
  unfold load_automata
  rw [hfun]
  by_cases h1 : initial_state ∉ states
  · rw [if_pos h1, if_pos h1]; rfl
  · rw [if_neg h1, if_neg h1]
    by_cases h2 : ¬ final_states.all (fun s => states.contains s) = true
    · rw [if_pos h2, if_pos h2]; rfl
    · rw [if_neg h2, if_neg h2]
      by_cases h3 : ¬ delta.all (fun e =>
          states.contains e.1 &&
          (alphabet.contains e.2.1 || e.2.1 == "&") &&
          states.contains e.2.2) = true
      · rw [if_pos h3, if_pos h3]; rfl
      · rw [if_neg h3, if_neg h3]; rfl

theorem closF_closure_mono (current : String)
    (cs : List String × List String) (e : Edge) (x : String)
    (hx : x ∈ cs.1) : x ∈ (closF current cs e).1 := by
  unfold closF
  split
  · exact List.mem_append_left _ hx
  · exact hx

theorem closF_stack_mono (current : String)
    (cs : List String × List String) (e : Edge) (x : String)
    (hx : x ∈ cs.2) : x ∈ (closF current cs e).2 := by
  unfold closF
  split
  · exact List.mem_cons_of_mem _ hx
  · exact hx

theorem closF_fold_closure_mono (current : String) :
    ∀ (l : List Edge) (cs : List String × List String) (x : String),
      x ∈ cs.1 → x ∈ (l.foldl (closF current) cs).1 := by
  intro l
  induction l with
  | nil => intro cs x hx; exact hx
  | cons e l ih =>
    intro cs x hx
    simp only [List.foldl_cons]
    exact ih _ _ (closF_closure_mono current cs e x hx)

theorem closF_fold_stack_mono (current : String) :
    ∀ (l : List Edge) (cs : List String × List String) (x : String),
      x ∈ cs.2 → x ∈ (l.foldl (closF current) cs).2 := by
  intro l
  induction l with
  | nil => intro cs x hx; exact hx
  | cons e l ih =>
    intro cs x hx
    simp only [List.foldl_cons]
    exact ih _ _ (closF_stack_mono current cs e x hx)

theorem closF_fold_closure_elem (current : String) :
    ∀ (l : List Edge) (cs : List String × List String) (x : String),
      x ∈ (l.foldl (closF current) cs).1 →
      x ∈ cs.1 ∨ ∃ e ∈ l, e.1 = current ∧ e.2.1 = "&" ∧ e.2.2 = x := by
  intro l
  induction l with
  | nil => intro cs x h; exact Or.inl h
  | cons e l ih =>
    intro cs x h
    simp only [List.foldl_cons] at h
    rcases ih _ _ h with h1 | ⟨e1, he1, hp⟩
    · unfold closF at h1
      by_cases hc : e.1 = current ∧ e.2.1 = "&" ∧ e.2.2 ∉ cs.1
      · rw [if_pos hc] at h1
        rcases List.mem_append.mp h1 with h2 | h2
        · exact Or.inl h2
        · have hx : x = e.2.2 := by simpa using h2
          exact Or.inr ⟨e, List.mem_cons_self _ _, hc.1, hc.2.1, hx.symm⟩
      · rw [if_neg hc] at h1
        exact Or.inl h1
    · exact Or.inr ⟨e1, List.mem_cons_of_mem _ he1, hp⟩

theorem closF_fold_stack_elem (current : String) :
    ∀ (l : List Edge) (cs : List String × List String) (x : String),
      x ∈ (l.foldl (closF current) cs).2 →
      x ∈ cs.2 ∨ ∃ e ∈ l, e.1 = current ∧ e.2.1 = "&" ∧ e.2.2 = x := by
  intro l
  induction l with
  | nil => intro cs x h; exact Or.inl h
  | cons e l ih =>
    intro cs x h
    simp only [List.foldl_cons] at h
    rcases ih _ _ h with h1 | ⟨e1, he1, hp⟩
    · unfold closF at h1
      by_cases hc : e.1 = current ∧ e.2.1 = "&" ∧ e.2.2 ∉ cs.1
      · rw [if_pos hc] at h1
        rcases List.mem_cons.mp h1 with h2 | h2
        · exact Or.inr ⟨e, List.mem_cons_self _ _, hc.1, hc.2.1, h2.symm⟩
        · exact Or.inl h2
      · rw [if_neg hc] at h1
        exact Or.inl h1
    · exact Or.inr ⟨e1, List.mem_cons_of_mem _ he1, hp⟩

theorem closF_fold_stack_sub_closure (current : String) :
    ∀ (l : List Edge) (cs : List String × List String),
      (∀ x ∈ cs.2, x ∈ cs.1) →
      ∀ x ∈ (l.foldl (closF current) cs).2, x ∈ (l.foldl (closF current) cs).1 := by
  intro l
  induction l with
  | nil => intro cs h x hx; exact h x hx
  | cons e l ih =>
    intro cs h x hx
    simp only [List.foldl_cons] at hx ⊢
    refine ih _ ?_ x hx
    intro y hy
    unfold closF at hy ⊢
    by_cases hc : e.1 = current ∧ e.2.1 = "&" ∧ e.2.2 ∉ cs.1
    · rw [if_pos hc] at hy ⊢
      rcases List.mem_cons.mp hy with h2 | h2
      · exact List.mem_append_right _ (by simp [h2])
      · exact List.mem_append_left _ (h y h2)
    · rw [if_neg hc] at hy ⊢
      exact h y hy

theorem closF_fold_new_in_stack (current : String) :
    ∀ (l : List Edge) (cs : List String × List String) (x : String),
      x ∈ (l.foldl (closF current) cs).1 →
      x ∈ cs.1 ∨ x ∈ (l.foldl (closF current) cs).2 := by
  intro l
  induction l with
  | nil => intro cs x h; exact Or.inl h
  | cons e l ih =>
    intro cs x h
    simp only [List.foldl_cons] at h ⊢
    rcases ih _ _ h with h1 | h1
    · unfold closF at h1
      by_cases hc : e.1 = current ∧ e.2.1 = "&" ∧ e.2.2 ∉ cs.1
      · rw [if_pos hc] at h1
        rcases List.mem_append.mp h1 with h2 | h2
        · exact Or.inl h2
        · have hx : x = e.2.2 := by simpa using h2
          refine Or.inr (closF_fold_stack_mono current l _ x ?_)
          unfold closF
          rw [if_pos hc]
          simp [hx]
      · rw [if_neg hc] at h1
        exact Or.inl h1
    · exact Or.inr h1

theorem closF_fold_cover (current : String) :
    ∀ (l : List Edge) (cs : List String × List String),
      ∀ e ∈ l, e.1 = current → e.2.1 = "&" →
        e.2.2 ∈ (l.foldl (closF current) cs).1 := by
  intro l
  induction l with
  | nil => intro cs e he; exact absurd he (List.not_mem_nil e)
  | cons e0 l ih =>
    intro cs e he hcur heps
    simp only [List.foldl_cons]
    rcases List.mem_cons.mp he with h2 | h2
    · subst h2
      by_cases hd : e.2.2 ∈ cs.1
      · exact closF_fold_closure_mono current l _ _
          (closF_closure_mono current cs e e.2.2 hd)
      · refine closF_fold_closure_mono current l _ _ ?_
        unfold closF
        rw [if_pos ⟨hcur, heps, hd⟩]
        simp
    · exact ih _ e h2 hcur heps

theorem closF_measure (delta : List Edge) (current : String) (e : Edge)
    (he : e ∈ delta) (cs : List String × List String) :
    closMeasure delta (closF current cs e).1 (closF current cs e).2 ≤
      closMeasure delta cs.1 cs.2 := by
  unfold closF
  by_cases hc : e.1 = current ∧ e.2.1 = "&" ∧ e.2.2 ∉ cs.1
  · rw [if_pos hc]
    unfold closMeasure
    have hd : e.2.2 ∈ (delta.map (fun e => e.2.2)).toFinset \ cs.1.toFinset := by
      simp only [Finset.mem_sdiff, List.mem_toFinset, List.mem_map]
      exact ⟨⟨e, he, rfl⟩, hc.2.2⟩
    have hset : (delta.map (fun e => e.2.2)).toFinset \ (cs.1 ++ [e.2.2]).toFinset =
        ((delta.map (fun e => e.2.2)).toFinset \ cs.1.toFinset).erase e.2.2 := by
      ext x
      simp only [Finset.mem_sdiff, Finset.mem_erase, List.mem_toFinset,
        List.mem_append, List.mem_singleton]
      tauto
    rw [hset, Finset.card_erase_of_mem hd]
    have hpos : 0 < ((delta.map (fun e => e.2.2)).toFinset \ cs.1.toFinset).card :=
      Finset.card_pos.mpr ⟨e.2.2, hd⟩
    simp only [List.length_cons]
    omega
  · rw [if_neg hc]

theorem closF_fold_measure (delta : List Edge) (current : String) :
    ∀ (l : List Edge), (∀ e ∈ l, e ∈ delta) →
      ∀ cs : List String × List String,
        closMeasure delta (l.foldl (closF current) cs).1
            (l.foldl (closF current) cs).2 ≤
          closMeasure delta cs.1 cs.2 := by
  intro l
  induction l with
  | nil => intro _ cs; exact Nat.le_refl _
  | cons e l ih =>
    intro hl cs
    simp only [List.foldl_cons]
    exact Nat.le_trans
      (ih (fun x hx => hl x (List.mem_cons_of_mem _ hx)) _)
      (closF_measure delta current e (hl e (List.mem_cons_self _ _)) cs)

theorem closureLoopF_isSome (delta : List Edge) :
    ∀ (fuel : Nat) (closure stack : List String),
      closMeasure delta closure stack < fuel →
      ∃ res, closureLoopF delta fuel closure stack = some res := by
  intro fuel
  induction fuel with
  | zero => intro closure stack h; exact absurd h (Nat.not_lt_zero _)
  | succ fuel ih =>
    intro closure stack h
    match stack with
    | [] => exact ⟨closure, rfl⟩
    | current :: stk =>
      have hm : closMeasure delta (expandStep delta current (closure, stk)).1
          (expandStep delta current (closure, stk)).2 < fuel := by
        have h1 : closMeasure delta (expandStep delta current (closure, stk)).1
            (expandStep delta current (closure, stk)).2 ≤
            closMeasure delta closure stk :=
          closF_fold_measure delta current delta (fun _ hx => hx) (closure, stk)
        have h2 : closMeasure delta closure (current :: stk) =
            closMeasure delta closure stk + 1 := by
          unfold closMeasure
          simp only [List.length_cons]
          omega
        omega
      obtain ⟨res, hres⟩ := ih _ _ hm
      exact ⟨res, hres⟩

theorem closMeasure_init (delta : List Edge) (state : String) :
    closMeasure delta [state] [state] < delta.length + 2 := by
  unfold closMeasure
  have h1 : ((delta.map (fun e => e.2.2)).toFinset \ [state].toFinset).card ≤
      (delta.map (fun e => e.2.2)).toFinset.card :=
    Finset.card_le_card (Finset.sdiff_subset)
  have h2 : (delta.map (fun e => e.2.2)).toFinset.card ≤
      (delta.map (fun e => e.2.2)).length :=
    List.toFinset_card_le _
  have h3 : (delta.map (fun e => e.2.2)).length = delta.length :=
    List.length_map _ _
  simp only [List.length_singleton]
  omega

theorem closureLoopF_spec (delta : List Edge) (s0 : String) :
    ∀ (fuel : Nat) (closure stack res : List String),
      (∀ x ∈ closure, epsReach delta s0 x) →
      (∀ x ∈ stack, x ∈ closure) →
      (∀ x ∈ closure, x ∈ stack ∨
        ∀ e ∈ delta, e.1 = x → e.2.1 = "&" → e.2.2 ∈ closure) →
      closureLoopF delta fuel closure stack = some res →
      (∀ x ∈ closure, x ∈ res) ∧ (∀ x ∈ res, epsReach delta s0 x) ∧
        (∀ x ∈ res, ∀ e ∈ delta, e.1 = x → e.2.1 = "&" → e.2.2 ∈ res) := by
  intro fuel
  induction fuel with
  | zero => intro closure stack res _ _ _ h; exact absurd h (by simp [closureLoopF])
  | succ fuel ih =>
    intro closure stack res hInv1 hInv2 hInv3 heq
    match stack with
    | [] =>
      have hres : closure = res := by
        simpa [closureLoopF] using heq
      subst hres
      refine ⟨fun x hx => hx, hInv1, ?_⟩
      intro x hx e he h1 h2
      rcases hInv3 x hx with hmem | hcl
      · exact absurd hmem (List.not_mem_nil x)
      · exact hcl e he h1 h2
    | current :: stk =>
      have heq2 : closureLoopF delta fuel
          (expandStep delta current (closure, stk)).1
          (expandStep delta current (closure, stk)).2 = some res := heq
      have hInv1n : ∀ x ∈ (expandStep delta current (closure, stk)).1,
          epsReach delta s0 x := by
        intro x hx
        rcases closF_fold_closure_elem current delta (closure, stk) x hx with
          h | ⟨e, he, hcur, heps, hdst⟩
        · exact hInv1 x h
        · have hcc : current ∈ closure := hInv2 current (List.mem_cons_self _ _)
          exact Relation.ReflTransGen.tail (hInv1 current hcc)
            ⟨e, he, hcur, heps, hdst⟩
      have hInv2n : ∀ x ∈ (expandStep delta current (closure, stk)).2,
          x ∈ (expandStep delta current (closure, stk)).1 :=
        closF_fold_stack_sub_closure current delta (closure, stk)
          (fun y hy => hInv2 y (List.mem_cons_of_mem _ hy))
      have hInv3n : ∀ x ∈ (expandStep delta current (closure, stk)).1,
          x ∈ (expandStep delta current (closure, stk)).2 ∨
            ∀ e ∈ delta, e.1 = x → e.2.1 = "&" →
              e.2.2 ∈ (expandStep delta current (closure, stk)).1 := by
        intro x hx
        rcases closF_fold_new_in_stack current delta (closure, stk) x hx with
          hold | hstk
        · rcases hInv3 x hold with hmem | hcl
          · rcases List.mem_cons.mp hmem with hx0 | hx0
            · right
              intro e he hcur heps
              exact closF_fold_cover current delta (closure, stk) e he
                (hx0 ▸ hcur) heps
            · left
              exact closF_fold_stack_mono current delta (closure, stk) x hx0
          · right
            intro e he hcur heps
            exact closF_fold_closure_mono current delta (closure, stk) _
              (hcl e he hcur heps)
        · left
          exact hstk
      obtain ⟨hsub, hsound, hclosed⟩ := ih _ _ res hInv1n hInv2n hInv3n heq2
      refine ⟨?_, hsound, hclosed⟩
      intro x hx
      exact hsub x (closF_fold_closure_mono current delta (closure, stk) x hx)

/-- C7: `handle_closure` terminates on every state and every finite
transition list, cyclic epsilon transitions included: the membership guard
lets each distinct destination be pushed at most once, so the loop reaches
its natural end (stack exhausted) within `delta.length + 2` iterations,
the fuel `handle_closure` runs it with. -/
theorem handle_closure_terminating (state : String) (delta : List Edge) :
    ∃ res, closureLoopF delta (delta.length + 2) [state] [state] = some res ∧
      handle_closure state delta = res := by
  obtain ⟨res, hres⟩ := closureLoopF_isSome delta (delta.length + 2)
    [state] [state] (closMeasure_init delta state)
  exact ⟨res, hres, by unfold handle_closure; rw [hres]; rfl⟩

/-- C6: `handle_closure state delta` contains exactly the states reachable
from `state` by zero or more epsilon transitions of `delta` (itself
included, by reflexivity of the reachability relation); in particular,
with no outgoing epsilon transitions the closure is `{state}`. -/
theorem handle_closure_mem (state : String) (delta : List Edge)
    (t : String) :
    t ∈ handle_closure state delta ↔ epsReach delta state t := by
  obtain ⟨res, hres⟩ := closureLoopF_isSome delta (delta.length + 2)
    [state] [state] (closMeasure_init delta state)
  have hh : handle_closure state delta = res := by
    unfold handle_closure; rw [hres]; rfl
  have hInv1 : ∀ x ∈ [state], epsReach delta state x := by
    intro x hx
    rw [List.mem_singleton.mp hx]
    exact Relation.ReflTransGen.refl
  have hInv2 : ∀ x ∈ [state], x ∈ [state] := fun x hx => hx
  have hInv3 : ∀ x ∈ [state], x ∈ [state] ∨
      ∀ e ∈ delta, e.1 = x → e.2.1 = "&" → e.2.2 ∈ [state] :=
    fun x hx => Or.inl hx
  obtain ⟨hsub, hsound, hclosed⟩ := closureLoopF_spec delta state
    (delta.length + 2) [state] [state] res hInv1 hInv2 hInv3 hres
  rw [hh]
  constructor
  · exact hsound t
  · intro hr
    induction hr with
    | refl => exact hsub state (List.mem_singleton_self state)
    | tail hab hbc ihr =>
      obtain ⟨e, he, h1, h2, h3⟩ := hbc
      exact h3 ▸ hclosed _ ihr e he h1 h2

theorem mem_unionS (a b : List String) (x : String) :
    x ∈ unionS a b ↔ x ∈ a ∨ x ∈ b := by
  unfold unionS
  induction b generalizing a with
  | nil => simp
  | cons c b ih =>
    simp only [List.foldl_cons]
    by_cases hc : c ∈ a
    · rw [if_pos hc, ih]
      constructor
      · intro h
        rcases h with h | h
        · exact Or.inl h
        · exact Or.inr (List.mem_cons_of_mem _ h)
      · intro h
        rcases h with h | h
        · exact Or.inl h
        · rcases List.mem_cons.mp h with h2 | h2
          · exact Or.inl (h2 ▸ hc)
          · exact Or.inr h2
    · rw [if_neg hc, ih]
      simp only [List.mem_append, List.mem_singleton, List.mem_cons]
      tauto

theorem mem_succState_inner (delta : List Edge) (st symbol : String) :
    ∀ (l : List Edge) (acc : List String) (x : String),
      x ∈ l.foldl (fun acc2 e =>
          if e.1 = st ∧ e.2.1 = symbol then
            unionS acc2 (handle_closure e.2.2 delta)
          else acc2) acc ↔
        x ∈ acc ∨ ∃ e ∈ l, e.1 = st ∧ e.2.1 = symbol ∧
          x ∈ handle_closure e.2.2 delta := by
  intro l
  induction l with
  | nil => simp
  | cons e l ih =>
    intro acc x
    simp only [List.foldl_cons]
    rw [ih]
    by_cases hc : e.1 = st ∧ e.2.1 = symbol
    · rw [if_pos hc, mem_unionS]
      constructor
      · intro h
        rcases h with (h | h) | ⟨e1, he1, hp⟩
        · exact Or.inl h
        · exact Or.inr ⟨e, List.mem_cons_self _ _, hc.1, hc.2, h⟩
        · exact Or.inr ⟨e1, List.mem_cons_of_mem _ he1, hp⟩
      · intro h
        rcases h with h | ⟨e1, he1, hp⟩
        · exact Or.inl (Or.inl h)
        · rcases List.mem_cons.mp he1 with h2 | h2
          · exact Or.inl (Or.inr (h2 ▸ hp.2.2))
          · exact Or.inr ⟨e1, h2, hp⟩
    · rw [if_neg hc]
      constructor
      · intro h
        rcases h with h | ⟨e1, he1, hp⟩
        · exact Or.inl h
        · exact Or.inr ⟨e1, List.mem_cons_of_mem _ he1, hp⟩
      · intro h
        rcases h with h | ⟨e1, he1, hp⟩
        · exact Or.inl h
        · rcases List.mem_cons.mp he1 with h2 | h2
          · exact absurd ⟨h2 ▸ hp.1, h2 ▸ hp.2.1⟩ hc
          · exact Or.inr ⟨e1, h2, hp⟩

theorem mem_succState (delta : List Edge) (current : StSet) (symbol : String)
    (x : String) :
    x ∈ succState delta current symbol ↔
      ∃ st ∈ current, ∃ e ∈ delta, e.1 = st ∧ e.2.1 = symbol ∧
        x ∈ handle_closure e.2.2 delta := by
  unfold succState
  have hgen : ∀ (S : List String) (acc : List String),
      x ∈ S.foldl (fun acc st => delta.foldl (fun acc2 e =>
          if e.1 = st ∧ e.2.1 = symbol then
            unionS acc2 (handle_closure e.2.2 delta)
          else acc2) acc) acc ↔
        x ∈ acc ∨ ∃ st ∈ S, ∃ e ∈ delta, e.1 = st ∧ e.2.1 = symbol ∧
          x ∈ handle_closure e.2.2 delta := by
    intro S
    induction S with
    | nil => simp
    | cons st S ih =>
      intro acc
      simp only [List.foldl_cons]
      rw [ih, mem_succState_inner delta st symbol delta]
      constructor
      · intro h
        rcases h with (h | ⟨e, he, hp⟩) | ⟨s1, hs1, hp⟩
        · exact Or.inl h
        · exact Or.inr ⟨st, List.mem_cons_self _ _, e, he, hp⟩
        · exact Or.inr ⟨s1, List.mem_cons_of_mem _ hs1, hp⟩
      · intro h
        rcases h with h | ⟨s1, hs1, e, he, hp⟩
        · exact Or.inl (Or.inl h)
        · rcases List.mem_cons.mp hs1 with h2 | h2
          · exact Or.inl (Or.inr ⟨e, he, h2 ▸ hp.1, hp.2⟩)
          · exact Or.inr ⟨s1, h2, e, he, hp⟩
  rw [hgen]
  simp

theorem succState_content (delta : List Edge) (S1 S2 : StSet)
    (symbol : String) (h : S1.toFinset = S2.toFinset) :
    (succState delta S1 symbol).toFinset = (succState delta S2 symbol).toFinset := by
  ext x
  simp only [List.mem_toFinset, mem_succState]
  constructor
  · rintro ⟨st, hst, hp⟩
    refine ⟨st, ?_, hp⟩
    have := List.mem_toFinset.mpr hst
    rw [h] at this
    exact List.mem_toFinset.mp this
  · rintro ⟨st, hst, hp⟩
    refine ⟨st, ?_, hp⟩
    have := List.mem_toFinset.mpr hst
    rw [← h] at this
    exact List.mem_toFinset.mp this

theorem dfaStep_fst (delta : List Edge) (current : StSet)
    (acc : List (StSet × String × StSet) × List StSet × List StSet)
    (symbol : String) :
    (dfaStep delta current acc symbol).1 =
      if succState delta current symbol = [] then acc.1
      else acc.1 ++ [(current, symbol, succState delta current symbol)] := by
  unfold dfaStep
  by_cases hc : succState delta current symbol = []
  · rw [if_pos hc, if_pos hc]
  · rw [if_neg hc, if_neg hc]
    split <;> rfl

theorem dfaFold_recordedOk (delta : List Edge) (current : StSet) :
    ∀ (syms : List String)
      (acc : List (StSet × String × StSet) × List StSet × List StSet),
      (∀ t ∈ acc.1, recordedOk delta t) →
      ∀ t ∈ (syms.foldl (dfaStep delta current) acc).1, recordedOk delta t := by
  intro syms
  induction syms with
  | nil => intro acc h t ht; exact h t ht
  | cons s syms ih =>
    intro acc h t ht
    simp only [List.foldl_cons] at ht
    refine ih _ ?_ t ht
    intro u hu
    rw [dfaStep_fst] at hu
    split at hu
    · exact h u hu
    · rcases List.mem_append.mp hu with h2 | h2
      · exact h u h2
      · have : u = (current, s, succState delta current s) := by simpa using h2
        rw [this]
        rfl

theorem dfaLoop_recordedOk (alphabet : List String) (delta : List Edge) :
    ∀ (fuel : Nat) (ns : List StSet) (nd : List (StSet × String × StSet))
      (queue watched : List StSet),
      (∀ t ∈ nd, recordedOk delta t) →
      ∀ t ∈ (dfaLoop alphabet delta fuel ns nd queue watched).2,
        recordedOk delta t := by
  intro fuel
  induction fuel with
  | zero => intro ns nd queue watched h t ht; exact h t ht
  | succ fuel ih =>
    intro ns nd queue watched h t ht
    match queue with
    | [] => exact h t ht
    | current :: queue =>
      have ht2 : t ∈ (dfaLoop alphabet delta fuel (ns ++ [current])
          (alphabet.foldl (dfaStep delta current) (nd, queue, watched)).1
          (alphabet.foldl (dfaStep delta current) (nd, queue, watched)).2.1
          (alphabet.foldl (dfaStep delta current) (nd, queue, watched)).2.2).2 := ht
      exact ih _ _ _ _
        (dfaFold_recordedOk delta current alphabet (nd, queue, watched) h) t ht2

/-- C2 amended: the subset construction is deterministic at the State-Set
level.  Any two transitions recorded by the `while queue` loop of
`convert_to_dfa` whose source sets have the same members and whose symbols
coincide have destination sets with the same members (each destination is
the content-determined successor of its source).  The label-level claim
fails, as the counterexample shows, because distinct sets can
share one label, and the initial set, never seeded into `watched`, can be
processed twice. -/
theorem dfaLoop_content_deterministic (alphabet : List String)
    (delta : List Edge) (fuel : Nat) (queue : List StSet)
    (t1 t2 : StSet × String × StSet)
    (h1 : t1 ∈ (dfaLoop alphabet delta fuel [] [] queue []).2)
    (h2 : t2 ∈ (dfaLoop alphabet delta fuel [] [] queue []).2)
    (hsrc : t1.1.toFinset = t2.1.toFinset) (hsym : t1.2.1 = t2.2.1) :
    t1.2.2.toFinset = t2.2.2.toFinset := by
  have k1 := dfaLoop_recordedOk alphabet delta fuel [] [] queue []
    (by intro t ht; exact absurd ht (List.not_mem_nil t)) t1 h1
  have k2 := dfaLoop_recordedOk alphabet delta fuel [] [] queue []
    (by intro t ht; exact absurd ht (List.not_mem_nil t)) t2 h2
  unfold recordedOk at k1 k2
  rw [k1, k2, hsym]
  exact succState_content delta t1.1 t2.1 t2.2.1 hsrc

/-- Witness for the amended C2 on the self-loop automaton `exSelf`, whose
initial composite set is processed twice and records its transition
twice. -/
theorem dfaLoop_content_deterministic_witness :
    ((["q0"], "a", ["q0"]) : StSet × String × StSet).2.2.toFinset =
      ((["q0"], "a", ["q0"]) : StSet × String × StSet).2.2.toFinset :=
  dfaLoop_content_deterministic ["a"] [("q0", "a", "q0")] 4 [["q0"]]
    (["q0"], "a", ["q0"]) (["q0"], "a", ["q0"]) (by decide) (by decide) rfl rfl
